import Mathlib

/-!
Verification of `tools/gen_third_party.py`, the third-party license report
generator.  The Python source is shallowly embedded below: filesystem paths
become lists of components, Python dicts become association lists with
last-write-wins update, Python's stable `list.sort` becomes `List.mergeSort`,
and byte strings become `List Nat`.  Each claim about the generator is then
stated and settled as a theorem about these definitions.
-/

namespace ThirdParty

/-! ## Filesystem paths

A `P` models a `pathlib.Path`: a flag for absoluteness plus the list of
components.  `normParts` models the purely syntactic part of `Path.resolve()`
(the model filesystem has no symlinks): `"."` components vanish and `".."`
pops the previous component. -/

structure P where
  absP : Bool
  parts : List String
deriving DecidableEq, Repr

/-- One step of `..`/`.` normalisation over a reversed accumulator. -/
def normStep (acc : List String) (c : String) : List String :=
  if c = "." then acc
  else if c = ".." then acc.tail
  else c :: acc

def normParts (l : List String) : List String :=
  (l.foldl normStep []).reverse

/-- `Path.resolve()` in a symlink-free filesystem. -/
def resolveP (p : P) : P :=
  ⟨p.absP, normParts p.parts⟩

/-- `pathlib`'s `/` operator: an absolute right operand wins. -/
def joinP (a b : P) : P :=
  if b.absP then b else ⟨a.absP, a.parts ++ b.parts⟩

/-- `Path.parent`. -/
def parentP (p : P) : P :=
  ⟨p.absP, p.parts.dropLast⟩

/-- `Path.name`: the final component (empty for a bare root). -/
def nameP (p : P) : String :=
  p.parts.getLast?.getD ""

/-- Split a character list at `'/'` separators. -/
def splitSlashGo (cur : List Char) : List Char → List (List Char)
  | [] => [cur.reverse]
  | c :: rest => if c = '/' then cur.reverse :: splitSlashGo [] rest else splitSlashGo (c :: cur) rest

/-- Whether the path string is absolute (begins with `'/'`). -/
def strHeadIsSlash (s : String) : Bool :=
  match s.data with
  | c :: _ => c = '/'
  | [] => false

/-- Parse a path string into components, as `pathlib.Path(s)` does. -/
def parsePath (s : String) : P :=
  ⟨strHeadIsSlash s,
    ((splitSlashGo [] s.data).map (fun cs => String.mk cs)).filter (fun c => c ≠ "")⟩

/-- `is_within(path, root)` from the source: resolve both sides and test
whether `relative_to` succeeds, i.e. whether the root's components are a
prefix of the path's components (with matching anchors). -/
def is_within (path root : P) : Bool :=
  (resolveP path).absP == (resolveP root).absP &&
    (resolveP root).parts.isPrefixOf (resolveP path).parts

/-! ## Data model

`RawPkg` is one entry of `cargo metadata`'s `packages` array; `Pkg` is the
`Pkg` dataclass of the source.  `Dep` is one element of a resolve node's
`deps` list; its `dep_kinds` is the list of `kind` fields (each possibly
null). -/

structure RawPkg where
  id : String
  name : String
  version : String
  manifest_path : String
  license : Option String
  license_file : Option String
  repository : Option String
  source : Option String
deriving DecidableEq, Repr

structure Pkg where
  pkg_id : String
  name : String
  version : String
  manifest_path : P
  license_expr : Option String
  license_file : Option P
  repository : Option String
  source : Option String
deriving DecidableEq, Repr

structure Dep where
  pkg : String
  dep_kinds : List (Option String)
deriving DecidableEq, Repr

structure Node where
  id : String
  deps : List Dep
deriving DecidableEq, Repr

structure Resolve where
  nodes : List Node
deriving DecidableEq, Repr

structure Metadata where
  packages : List RawPkg
  resolve : Option Resolve
  workspace_members : List String
  workspace_default_members : Option (List String)
deriving DecidableEq, Repr

/-! ## Python dicts as association lists -/

/-- `m[k] = v` on a Python dict: overwrite in place, else append. -/
def dictUpdate [DecidableEq κ] (m : List (κ × α)) (k : κ) (v : α) : List (κ × α) :=
  if m.any (fun e => e.1 = k) then
    m.map (fun e => if e.1 = k then (k, v) else e)
  else m ++ [(k, v)]

/-- `m.get(k)` on a Python dict. -/
def dictGet [DecidableEq κ] (m : List (κ × α)) (k : κ) : Option α :=
  (m.find? (fun e => e.1 = k)).map (fun e => e.2)

/-! ## Catalog builder (`collect_packages`) -/

def pkgOfRaw (p : RawPkg) : Pkg :=
  { pkg_id := p.id
    name := p.name
    version := p.version
    manifest_path := parsePath p.manifest_path
    license_expr := p.license
    license_file :=
      match p.license_file with
      | some s => if s = "" then none else some (parsePath s)
      | none => none
    repository := p.repository
    source := p.source }

def collect_packages (meta : Metadata) : List (String × Pkg) :=
  meta.packages.foldl (fun out p => dictUpdate out p.id (pkgOfRaw p)) []

/-! ## Direct-dependency selector -/

/-- `wanted_dep_kind` from the source, verbatim. -/
def wanted_dep_kind (dep_kind : Option String) (include_dev include_build : Bool) : Bool :=
  match dep_kind with
  | none => true
  | some k =>
    if k = "normal" then true
    else if k = "dev" then include_dev
    else if k = "build" then include_build
    else false

/-- The `ok_kind = any(...)` test applied to one edge's kind list. -/
def edge_wanted (dep_kinds : List (Option String)) (include_dev include_build : Bool) : Bool :=
  dep_kinds.any (fun k => wanted_dep_kind k include_dev include_build)

/-- Adding an element to a Python `set`, modelled with insertion order kept. -/
def insertUniq (l : List String) (x : String) : List String :=
  if x ∈ l then l else l ++ [x]

/-- `meta.get("workspace_default_members") or list(workspace_members)` —
note Python's `or` also falls back when the reported list is empty. -/
def default_members_of (meta : Metadata) : List String :=
  match meta.workspace_default_members with
  | some l => if l.isEmpty then meta.workspace_members else l
  | none => meta.workspace_members

/-- The inner loop over one root node's `deps`. -/
def addNodeDeps (include_dev include_build : Bool) (acc : List String) (node : Node) :
    List String :=
  node.deps.foldl
    (fun acc2 dep =>
      if edge_wanted dep.dep_kinds include_dev include_build then insertUniq acc2 dep.pkg
      else acc2)
    acc

/-- The `direct_ids` set accumulated over all default-root nodes. -/
def direct_ids (meta : Metadata) (nodes : List (String × Node))
    (include_dev include_build : Bool) : List String :=
  (default_members_of meta).foldl
    (fun acc root_id =>
      match dictGet nodes root_id with
      | none => acc
      | some node => addNodeDeps include_dev include_build acc node)
    []

/-- The first-party filter and catalog lookup applied to the accumulated ids
(the `result` list of the source before sorting). -/
def selected_unsorted (meta : Metadata) (pkgs : List (String × Pkg))
    (nodes : List (String × Node)) (repo_root : P)
    (include_dev include_build : Bool) : List Pkg :=
  (direct_ids meta nodes include_dev include_build).filterMap
    (fun dep_id =>
      match dictGet pkgs dep_id with
      | none => none
      | some pkg =>
        if pkg.source.isNone && is_within pkg.manifest_path repo_root then none
        else some pkg)

/-- Python string `<`: lexicographic comparison by code point. -/
def chLtList : List Char → List Char → Bool
  | [], [] => false
  | [], _ :: _ => true
  | _ :: _, [] => false
  | a :: as, b :: bs => if a < b then true else if b < a then false else chLtList as bs

def strLtB (a b : String) : Bool :=
  chLtList a.data b.data

/-- Python string `≤` of a total order: `a ≤ b ↔ ¬ b < a`. -/
def strLeB (a b : String) : Bool :=
  !(strLtB b a)

/-- `str.lower()` (code-point-wise lowering). -/
def lowerStr (s : String) : String :=
  ⟨s.data.map Char.toLower⟩

/-- The sort key comparison `(p.name.lower(), p.version)`, as a boolean
`≤` for Python's stable sort. -/
def keyLe (a b : Pkg) : Bool :=
  strLtB (lowerStr a.name) (lowerStr b.name) ||
    (lowerStr a.name == lowerStr b.name && strLeB a.version b.version)

def direct_deps_of_roots (meta : Metadata) (pkgs : List (String × Pkg))
    (nodes : List (String × Node)) (repo_root : P)
    (include_dev include_build _include_optional : Bool) : List Pkg :=
  (selected_unsorted meta pkgs nodes repo_root include_dev include_build).mergeSort keyLe

/-! ## Dependency graph loader (`run_cargo_metadata`, `collect_resolve_nodes`)

The external process is abstracted as its observable result: exit code,
parsed standard output and captured standard error.  `SystemExit` becomes
the `Except.error` branch, with a `Diagnostic` naming the failure kind. -/

structure ProcResult where
  returncode : Int
  stdout : Metadata
  stderr : String

inductive Diagnostic where
  | ResolverInvocationFailed (exitCode : Int) (errStream : String)
  | MissingResolveGraph
deriving DecidableEq, Repr

def run_cargo_metadata (proc : ProcResult) : Except Diagnostic Metadata :=
  if proc.returncode ≠ 0 then
    .error (.ResolverInvocationFailed proc.returncode proc.stderr)
  else
    .ok proc.stdout

def collect_resolve_nodes (meta : Metadata) : Except Diagnostic (List (String × Node)) :=
  match meta.resolve with
  | none => .error .MissingResolveGraph
  | some r => .ok (r.nodes.foldl (fun m n => dictUpdate m n.id n) [])

/-! ## Heading anchors (`github_anchor`) -/

/-- ASCII whitespace, the `\s` class used by `strip`/`re.sub`. -/
def pyIsSpace (c : Char) : Bool :=
  c == ' ' || c == '\t' || c == '\n' || c == '\r' || c == '\x0b' || c == '\x0c'

/-- `str.strip()`: drop leading and trailing whitespace. -/
def stripChars (cs : List Char) : List Char :=
  ((cs.dropWhile pyIsSpace).reverse.dropWhile pyIsSpace).reverse

/-- The regex class `\w`. -/
def isWordChar (c : Char) : Bool :=
  c.isAlphanum || c == '_'

/-- A character surviving `re.sub(r"[^\w\s-]", "", t)`. -/
def keepAnchorChar (c : Char) : Bool :=
  isWordChar c || pyIsSpace c || c == '-'

/-- `re.sub(r"\s+", "-", t)`: each maximal whitespace run becomes one hyphen. -/
def collapseWsGo : Bool → List Char → List Char
  | _, [] => []
  | prevSpace, c :: rest =>
    if pyIsSpace c then
      if prevSpace then collapseWsGo true rest else '-' :: collapseWsGo true rest
    else c :: collapseWsGo false rest

def collapse_ws (cs : List Char) : List Char :=
  collapseWsGo false cs

/-- `re.sub(r"-\x7b2,\x7d", "-", t)`: hyphen runs collapse to one hyphen. -/
def collapseHyGo : Bool → List Char → List Char
  | _, [] => []
  | prevHy, c :: rest =>
    if c == '-' then
      if prevHy then collapseHyGo true rest else '-' :: collapseHyGo true rest
    else c :: collapseHyGo false rest

def collapse_hyphens (cs : List Char) : List Char :=
  collapseHyGo false cs

def anchor_chars (t : List Char) : List Char :=
  collapse_hyphens (collapse_ws (((stripChars t).map Char.toLower).filter keepAnchorChar))

def github_anchor (s : String) : String :=
  ⟨anchor_chars s.data⟩

/-! ## Renderer fragments used by the claims -/

def dep_title (p : Pkg) : String :=
  p.name ++ " " ++ p.version

def toc_line (p : Pkg) : String :=
  "- [" ++ dep_title p ++ "](#" ++ github_anchor (dep_title p) ++ ")"

def toc_lines (deps : List Pkg) : List String :=
  deps.map toc_line

def section_heading (p : Pkg) : String :=
  "## " ++ dep_title p

/-! ## Reading license files (`safe_read_text`)

File contents are byte lists.  `utf8Decode` is `bytes.decode("utf-8", errors=...)`
with the error handler made explicit: `some c` is the `"replace"` handler
(emit `c` for each maximal ill-formed subpart and continue), `none` is the
`"strict"` handler (raise, i.e. return `none`). -/

def isCont (b : Nat) : Bool :=
  0x80 ≤ b && b ≤ 0xBF

/-- Range of the first continuation byte, per lead byte (this encodes the
shortest-form and scalar-value restrictions of UTF-8). -/
def cont1Ok (b c : Nat) : Bool :=
  if b = 0xE0 then 0xA0 ≤ c && c ≤ 0xBF
  else if b = 0xED then 0x80 ≤ c && c ≤ 0x9F
  else if b = 0xF0 then 0x90 ≤ c && c ≤ 0xBF
  else if b = 0xF4 then 0x80 ≤ c && c ≤ 0x8F
  else isCont c

/-- U+FFFD, the substitution character used by the `"replace"` handler. -/
def repChar : Char := '�'

/-- One decoding step: given the head byte and the remaining bytes, return
the decoded scalar (`some c`) with the bytes left after the sequence, or
`none` with the bytes left after the *maximal ill-formed subpart* starting
at the head byte (CPython's error-handling granularity). -/
def utf8Step (b : Nat) (rest : List Nat) : Option Char × List Nat :=
  if b < 0x80 then (some (Char.ofNat b), rest)
  else if 0xC2 ≤ b ∧ b ≤ 0xDF then
    match rest with
    | c1 :: rest1 =>
      if isCont c1 then (some (Char.ofNat ((b - 0xC0) * 0x40 + (c1 - 0x80))), rest1)
      else (none, c1 :: rest1)
    | [] => (none, [])
  else if 0xE0 ≤ b ∧ b ≤ 0xEF then
    match rest with
    | c1 :: c2 :: rest2 =>
      if cont1Ok b c1 then
        if isCont c2 then
          (some (Char.ofNat ((b - 0xE0) * 0x1000 + (c1 - 0x80) * 0x40 + (c2 - 0x80))), rest2)
        else (none, c2 :: rest2)
      else (none, c1 :: c2 :: rest2)
    | [c1] => if cont1Ok b c1 then (none, []) else (none, [c1])
    | [] => (none, [])
  else if 0xF0 ≤ b ∧ b ≤ 0xF4 then
    match rest with
    | c1 :: c2 :: c3 :: rest3 =>
      if cont1Ok b c1 then
        if isCont c2 then
          if isCont c3 then
            (some (Char.ofNat ((b - 0xF0) * 0x40000 + (c1 - 0x80) * 0x1000 +
              (c2 - 0x80) * 0x40 + (c3 - 0x80))), rest3)
          else (none, c3 :: rest3)
        else (none, c2 :: c3 :: rest3)
      else (none, c1 :: c2 :: c3 :: rest3)
    | [c1, c2] =>
      if cont1Ok b c1 then
        if isCont c2 then (none, []) else (none, [c2])
      else (none, [c1, c2])
    | [c1] => if cont1Ok b c1 then (none, []) else (none, [c1])
    | [] => (none, [])
  else (none, rest)

theorem utf8Step_shrinks (b : Nat) (rest : List Nat) :
    (utf8Step b rest).2.length ≤ rest.length := by
  unfold utf8Step
  repeat' split
  all_goals simp
  all_goals omega

/-- `bytes.decode("utf-8", errors=...)`: on an ill-formed subpart the
`"strict"` handler (`none`) raises, the `"replace"` handler (`some c`)
emits `c` and continues after the subpart. -/
def utf8Decode (handler : Option Char) : List Nat → Option (List Char)
  | [] => some []
  | b :: rest =>
    match hs : utf8Step b rest with
    | (some c, resume) => (utf8Decode handler resume).map (fun cs => c :: cs)
    | (none, resume) =>
      match handler with
      | some c => (utf8Decode handler resume).map (fun cs => c :: cs)
      | none => none
termination_by l => l.length
decreasing_by
  all_goals
    have hlen := utf8Step_shrinks b rest
    rw [hs] at hlen
    simp only [List.length_cons] at hlen ⊢
    omega

/-- The `max_bytes` default of `safe_read_text`. -/
def maxBytes : Nat := 512000

def asciiBytes (s : String) : List Nat :=
  s.data.map Char.toNat

/-- The bytes `b"\n\n[TRUNCATED]\n"` appended at the truncation boundary. -/
def truncMarker : List Nat :=
  asciiBytes "\n\n[TRUNCATED]\n"

/-- The size-bounding step of `safe_read_text`. -/
def trunc_bytes (data : List Nat) : List Nat :=
  if data.length > maxBytes then data.take maxBytes ++ truncMarker else data

/-- `bytes.decode("latin-1", ...)`: every byte is a one-byte code point. -/
def latin1Decode (data : List Nat) : List Char :=
  data.map Char.ofNat

def safe_read_text (data : List Nat) : String :=
  match utf8Decode (some repChar) (trunc_bytes data) with
  | some cs => ⟨cs⟩
  | none => ⟨latin1Decode (trunc_bytes data)⟩

/-- `str.rstrip()`. -/
def rstripChars (cs : List Char) : List Char :=
  (cs.reverse.dropWhile pyIsSpace).reverse

def pyRstrip (s : String) : String :=
  ⟨rstripChars s.data⟩

/-- The lines the renderer appends for one discovered license file
(heading, blank, fence, stripped text, fence, blank). -/
def license_block_lines (rel : String) (data : List Nat) : List String :=
  ["### " ++ rel, "", "```text", pyRstrip (safe_read_text data), "```", ""]

/-! ## License file discovery (`find_license_files` and the renderer's
explicit `license_file` preference) -/

inductive FKind where
  | file
  | dir
deriving DecidableEq, Repr

/-- The filesystem as observed by the script: a directory listing and the
kind (regular file / directory) of each path, `none` when absent. -/
structure FS where
  entries : P → List String
  kind : P → Option FKind

def fsIsFile (fs : FS) (p : P) : Bool :=
  fs.kind p == some FKind.file

def fsExists (fs : FS) (p : P) : Bool :=
  (fs.kind p).isSome

def childP (d : P) (n : String) : P :=
  ⟨d.absP, d.parts ++ [n]⟩

/-- `fnmatch` for the two shapes of pattern used: a literal name, or a
literal stem followed by `.*`. -/
def globMatch (pat n : String) : Bool :=
  if ".*".data.isSuffixOf pat.data then pat.data.dropLast.isPrefixOf n.data else n == pat

def LICENSE_CANDIDATE_PATTERNS : List String :=
  ["LICENSE", "LICENSE.*", "LICENCE", "LICENCE.*",
   "COPYING", "COPYING.*",
   "NOTICE", "NOTICE.*",
   "COPYRIGHT", "COPYRIGHT.*",
   "UNLICENSE", "UNLICENSE.*"]

def find_license_files (fs : FS) (pkg_dir : P) : List P :=
  let found :=
    LICENSE_CANDIDATE_PATTERNS.foldl
      (fun acc pat =>
        acc ++ (((fs.entries pkg_dir).filter (globMatch pat)).map (childP pkg_dir)).filter
          (fsIsFile fs))
      []
  let uniq := found.foldl (fun m p => dictUpdate m (resolveP p) p) []
  (uniq.map (fun e => e.2)).mergeSort
    (fun a b => strLeB (lowerStr (nameP a)) (lowerStr (nameP b)))

/-- The renderer's choice of license files for one dependency: the declared
`license_file` (resolved against the manifest directory when relative) when it
exists and is a regular file, otherwise the pattern scan of the package
directory. -/
def select_license_files (fs : FS) (p : Pkg) : List P :=
  let pkg_dir := parentP p.manifest_path
  let explicit : List P :=
    match p.license_file with
    | none => []
    | some lf0 =>
      let lf := if lf0.absP then lf0 else resolveP (joinP pkg_dir lf0)
      if fsExists fs lf && fsIsFile fs lf then [lf] else []
  if explicit.isEmpty then find_license_files fs pkg_dir else explicit

/-- The same package with no declared `license_file` (used to compare the
renderer's fallback scan against the undeclared case). -/
def clearLicenseFile (p : Pkg) : Pkg :=
  ⟨p.pkg_id, p.name, p.version, p.manifest_path, p.license_expr, none, p.repository, p.source⟩

/-! ## Concrete example inputs (used to instantiate the theorems) -/

def exRootRaw : RawPkg :=
  ⟨"root-id", "root", "0.1.0", "/home/u/repo/Cargo.toml", none, none, none, none⟩

def exAlphaRaw : RawPkg :=
  ⟨"alpha-id", "alpha", "1.0.0", "/reg/alpha-1.0.0/Cargo.toml", some "MIT", none, none,
    some "registry+https://example"⟩

def exBetaRaw : RawPkg :=
  ⟨"beta-id", "beta", "2.0.0", "/reg/beta-2.0.0/Cargo.toml", some "MIT", none, none,
    some "registry+https://example"⟩

def exLocalRaw : RawPkg :=
  ⟨"local-id", "local", "0.1.0", "/home/u/repo/crates/local/Cargo.toml", none, none, none, none⟩

def exDup1Raw : RawPkg :=
  ⟨"dup1-id", "dup", "1.0.0", "/reg/dup-a/Cargo.toml", none, none, none, some "registry+a"⟩

def exDup2Raw : RawPkg :=
  ⟨"dup2-id", "dup", "1.0.0", "/reg/dup-b/Cargo.toml", none, none, none, some "registry+b"⟩

def exRepoRoot : P := parsePath "/home/u/repo"

/-- A workspace whose single default root depends directly on `alpha`, a
first-party `local` crate and two same-named `dup` crates, while `beta` is
only reachable through `alpha` (two hops). -/
def exMeta : Metadata :=
  ⟨[exRootRaw, exAlphaRaw, exBetaRaw, exLocalRaw, exDup1Raw, exDup2Raw],
    some ⟨[⟨"root-id",
            [⟨"alpha-id", [some "normal"]⟩, ⟨"local-id", [some "normal"]⟩,
             ⟨"dup1-id", [some "normal"]⟩, ⟨"dup2-id", [some "normal"]⟩]⟩,
           ⟨"alpha-id", [⟨"beta-id", [some "normal"]⟩]⟩,
           ⟨"beta-id", []⟩, ⟨"local-id", []⟩, ⟨"dup1-id", []⟩, ⟨"dup2-id", []⟩]⟩,
    ["root-id"], some ["root-id"]⟩

def exNodes : List (String × Node) :=
  (collect_resolve_nodes exMeta).toOption.getD []

def exMetaNoResolve : Metadata := ⟨[], none, [], none⟩

/-- A package declaring an explicit `license_file`. -/
def exLicPkg : Pkg :=
  ⟨"lic-id", "lic", "1.0.0", parsePath "/reg/lic-1.0.0/Cargo.toml", some "MIT",
    some (parsePath "docs/MY-LICENSE"), none, some "registry+https://example"⟩

/-- A filesystem for `exLicPkg`: the declared file exists, and the package
directory also contains a `LICENSE` that the pattern scan would find. -/
def exFs : FS :=
  ⟨fun d => if d = parsePath "/reg/lic-1.0.0" then ["MY-LICENSE-MISSING", "LICENSE", "src"] else [],
   fun p =>
     if p = parsePath "/reg/lic-1.0.0/docs/MY-LICENSE" then some .file
     else if p = parsePath "/reg/lic-1.0.0/LICENSE" then some .file
     else if p = parsePath "/reg/lic-1.0.0/src" then some .dir
     else none⟩

/-- The same filesystem with the declared license file absent. -/
def exFsNoDecl : FS :=
  ⟨exFs.entries,
   fun p => if p = parsePath "/reg/lic-1.0.0/docs/MY-LICENSE" then none else exFs.kind p⟩

/-! # Theorems -/

/-! ## Dictionary, set-insertion and fold lemmas -/

theorem mem_insertUniq {l : List String} {x y : String} :
    y ∈ insertUniq l x ↔ y ∈ l ∨ y = x := by
  unfold insertUniq
  split
  · rename_i hx
    constructor
    · exact Or.inl
    · rintro (h | rfl)
      · exact h
      · exact hx
  · simp [List.mem_append]

theorem nodup_insertUniq {l : List String} {x : String} (h : l.Nodup) :
    (insertUniq l x).Nodup := by
  unfold insertUniq
  split
  · exact h
  · rename_i hx
    refine List.Nodup.append h (List.nodup_singleton x) ?_
    intro a ha hax
    rw [List.mem_singleton] at hax
    exact hx (hax ▸ ha)

theorem mem_depsFold {dev bld : Bool} {y : String} :
    ∀ (deps : List Dep) (acc : List String),
      y ∈ deps.foldl
        (fun acc2 dep =>
          if edge_wanted dep.dep_kinds dev bld then insertUniq acc2 dep.pkg else acc2) acc ↔
      y ∈ acc ∨ ∃ dep ∈ deps, dep.pkg = y ∧ edge_wanted dep.dep_kinds dev bld = true := by
  intro deps
  induction deps with
  | nil => simp
  | cons d ds ih =>
    intro acc
    simp only [List.foldl_cons]
    rw [ih]
    by_cases hw : edge_wanted d.dep_kinds dev bld = true
    · simp only [hw, if_pos, mem_insertUniq, List.mem_cons]
      constructor
      · rintro (⟨h | rfl⟩ | ⟨dep, hdep, hy, hwd⟩)
        · exact Or.inl h
        · exact Or.inr ⟨d, Or.inl rfl, rfl, hw⟩
        · exact Or.inr ⟨dep, Or.inr hdep, hy, hwd⟩
      · rintro (h | ⟨dep, hdep | hdep, hy, hwd⟩)
        · exact Or.inl (Or.inl h)
        · subst hdep; exact Or.inl (Or.inr hy.symm)
        · exact Or.inr ⟨dep, hdep, hy, hwd⟩
    · simp only [hw, if_neg, List.mem_cons]
      constructor
      · rintro (h | ⟨dep, hdep, hy, hwd⟩)
        · exact Or.inl h
        · exact Or.inr ⟨dep, Or.inr hdep, hy, hwd⟩
      · rintro (h | ⟨dep, hdep | hdep, hy, hwd⟩)
        · exact Or.inl h
        · subst hdep; exact absurd hwd hw
        · exact Or.inr ⟨dep, hdep, hy, hwd⟩

theorem mem_addNodeDeps {dev bld : Bool} {y : String} (acc : List String) (node : Node) :
    y ∈ addNodeDeps dev bld acc node ↔
      y ∈ acc ∨ ∃ dep ∈ node.deps, dep.pkg = y ∧ edge_wanted dep.dep_kinds dev bld = true :=
  mem_depsFold node.deps acc

theorem mem_rootsFold {nodes : List (String × Node)} {dev bld : Bool} {y : String} :
    ∀ (roots : List String) (acc : List String),
      y ∈ roots.foldl
        (fun acc root_id =>
          match dictGet nodes root_id with
          | none => acc
          | some node => addNodeDeps dev bld acc node) acc ↔
      y ∈ acc ∨ ∃ r ∈ roots, ∃ node, dictGet nodes r = some node ∧
        ∃ dep ∈ node.deps, dep.pkg = y ∧ edge_wanted dep.dep_kinds dev bld = true := by
  intro roots
  induction roots with
  | nil => simp
  | cons r rs ih =>
    intro acc
    simp only [List.foldl_cons, List.mem_cons]
    rcases hq : dictGet nodes r with _ | node
    · rw [ih]
      constructor
      · rintro (h | ⟨r', hr', hrest⟩)
        · exact Or.inl h
        · exact Or.inr ⟨r', Or.inr hr', hrest⟩
      · rintro (h | ⟨r', rfl | hr', node, hnode, hrest⟩)
        · exact Or.inl h
        · rw [hq] at hnode; cases hnode
        · exact Or.inr ⟨r', hr', node, hnode, hrest⟩
    · rw [ih, mem_addNodeDeps]
      constructor
      · rintro (⟨h | hdep⟩ | ⟨r', hr', hrest⟩)
        · exact Or.inl h
        · exact Or.inr ⟨r, Or.inl rfl, node, hq, hdep⟩
        · exact Or.inr ⟨r', Or.inr hr', hrest⟩
      · rintro (h | ⟨r', rfl | hr', node', hnode, hrest⟩)
        · exact Or.inl (Or.inl h)
        · rw [hq] at hnode; cases hnode; exact Or.inl (Or.inr hrest)
        · exact Or.inr ⟨r', hr', node', hnode, hrest⟩

theorem mem_direct_ids {meta : Metadata} {nodes : List (String × Node)}
    {dev bld : Bool} {y : String} :
    y ∈ direct_ids meta nodes dev bld ↔
      ∃ r ∈ default_members_of meta, ∃ node, dictGet nodes r = some node ∧
        ∃ dep ∈ node.deps, dep.pkg = y ∧ edge_wanted dep.dep_kinds dev bld = true := by
  unfold direct_ids
  rw [mem_rootsFold]
  simp

theorem nodup_depsFold {dev bld : Bool} :
    ∀ (deps : List Dep) (acc : List String), acc.Nodup →
      (deps.foldl
        (fun acc2 dep =>
          if edge_wanted dep.dep_kinds dev bld then insertUniq acc2 dep.pkg else acc2)
        acc).Nodup := by
  intro deps
  induction deps with
  | nil => exact fun acc h => h
  | cons d ds ih =>
    intro acc h
    simp only [List.foldl_cons]
    apply ih
    split
    · exact nodup_insertUniq h
    · exact h

theorem nodup_direct_ids {meta : Metadata} {nodes : List (String × Node)} {dev bld : Bool} :
    (direct_ids meta nodes dev bld).Nodup := by
  unfold direct_ids
  generalize (default_members_of meta) = roots
  have aux : ∀ (rs : List String) (acc : List String), acc.Nodup →
      (rs.foldl
        (fun acc root_id =>
          match dictGet nodes root_id with
          | none => acc
          | some node => addNodeDeps dev bld acc node) acc).Nodup := by
    intro rs
    induction rs with
    | nil => exact fun acc h => h
    | cons r rs ih =>
      intro acc h
      simp only [List.foldl_cons]
      apply ih
      rcases hq : dictGet nodes r with _ | node
      · exact h
      · exact nodup_depsFold node.deps acc h
  exact aux roots [] List.nodup_nil

theorem mem_selected_unsorted {meta : Metadata} {pkgs : List (String × Pkg)}
    {nodes : List (String × Node)} {repo_root : P} {dev bld : Bool} {p : Pkg} :
    p ∈ selected_unsorted meta pkgs nodes repo_root dev bld ↔
      ∃ id ∈ direct_ids meta nodes dev bld, dictGet pkgs id = some p ∧
        (p.source.isNone && is_within p.manifest_path repo_root) = false := by
  unfold selected_unsorted
  rw [List.mem_filterMap]
  constructor
  · rintro ⟨id, hid, hf⟩
    rcases hq : dictGet pkgs id with _ | q
    · rw [hq] at hf; cases hf
    · rw [hq] at hf
      dsimp only at hf
      by_cases hc : (q.source.isNone && is_within q.manifest_path repo_root) = true
      · rw [if_pos hc] at hf; cases hf
      · rw [if_neg hc] at hf
        cases hf
        exact ⟨id, hid, hq, Bool.eq_false_iff.mpr hc⟩
  · rintro ⟨id, hid, hq, hc⟩
    refine ⟨id, hid, ?_⟩
    rw [hq]
    dsimp only
    rw [hc]
    simp

/-! ## C1: only direct (one-hop) edges of default roots are considered -/

/-- C1: a package is in the selected dependency list exactly when some
default workspace root has a *direct* edge (of a wanted kind) to its
identifier, the catalog maps that identifier to the package, and the package
passes the first-party filter.  In particular a package reachable only
through two or more hops never appears, and a direct dependency passing the
kind and first-party filters always does. -/
theorem selection_considers_only_direct_edges
    (meta : Metadata) (pkgs : List (String × Pkg)) (nodes : List (String × Node))
    (repo_root : P) (dev bld opt : Bool) (p : Pkg) :
    p ∈ direct_deps_of_roots meta pkgs nodes repo_root dev bld opt ↔
      ∃ dep_id, dictGet pkgs dep_id = some p ∧
        (∃ r ∈ default_members_of meta, ∃ node, dictGet nodes r = some node ∧
          ∃ dep ∈ node.deps, dep.pkg = dep_id ∧ edge_wanted dep.dep_kinds dev bld = true) ∧
        (p.source.isNone && is_within p.manifest_path repo_root) = false := by
  unfold direct_deps_of_roots
  rw [List.mem_mergeSort, mem_selected_unsorted]
  constructor
  · rintro ⟨id, hid, hq, hc⟩
    exact ⟨id, hq, mem_direct_ids.mp hid, hc⟩
  · rintro ⟨id, hq, hdir, hc⟩
    exact ⟨id, mem_direct_ids.mpr hdir, hq, hc⟩

/-! ## C3: first-party packages are never selected -/

/-- C3: a package with absent origin whose manifest resolves inside the
repository root never appears in the selected list. -/
theorem first_party_never_selected
    (meta : Metadata) (pkgs : List (String × Pkg)) (nodes : List (String × Node))
    (repo_root : P) (dev bld opt : Bool) (p : Pkg)
    (hsrc : p.source = none) (hin : is_within p.manifest_path repo_root = true) :
    p ∉ direct_deps_of_roots meta pkgs nodes repo_root dev bld opt := by
  intro hmem
  unfold direct_deps_of_roots at hmem
  rw [List.mem_mergeSort, mem_selected_unsorted] at hmem
  obtain ⟨id, _, _, hc⟩ := hmem
  rw [hsrc, hin] at hc
  cases hc

/-- Instantiation of `first_party_never_selected`: the `local` path crate of
the example workspace is dropped although the root depends on it directly. -/
theorem first_party_never_selected_witness :
    (pkgOfRaw exLocalRaw).source = none ∧
    is_within (pkgOfRaw exLocalRaw).manifest_path exRepoRoot = true ∧
    pkgOfRaw exLocalRaw ∉
      direct_deps_of_roots exMeta (collect_packages exMeta) exNodes exRepoRoot false false false :=
  ⟨rfl, by decide,
    first_party_never_selected exMeta (collect_packages exMeta) exNodes exRepoRoot
      false false false (pkgOfRaw exLocalRaw) rfl (by decide)⟩

/-! ## C8: includeOptional is a no-op -/

/-- C8: the selected list does not depend on the `include_optional` flag. -/
theorem include_optional_noop
    (meta : Metadata) (pkgs : List (String × Pkg)) (nodes : List (String × Node))
    (repo_root : P) (dev bld : Bool) :
    direct_deps_of_roots meta pkgs nodes repo_root dev bld true =
      direct_deps_of_roots meta pkgs nodes repo_root dev bld false := rfl

/-! ## C2: kind filtering of one edge -/

/-- C2: an edge with a `"normal"` kind or a null kind is always wanted; an
edge whose only kinds are `"dev"` is wanted iff `include_dev`; an edge whose
only kinds are `"build"` is wanted iff `include_build`. -/
theorem edge_kind_filtering (dev bld : Bool) (ks : List (Option String)) :
    ((none ∈ ks ∨ some "normal" ∈ ks) → edge_wanted ks dev bld = true) ∧
    (ks ≠ [] → (∀ k ∈ ks, k = some "dev") → edge_wanted ks dev bld = dev) ∧
    (ks ≠ [] → (∀ k ∈ ks, k = some "build") → edge_wanted ks dev bld = bld) := by
  refine ⟨?_, ?_, ?_⟩
  · intro h
    unfold edge_wanted
    rw [List.any_eq_true]
    rcases h with h | h
    · exact ⟨none, h, rfl⟩
    · exact ⟨some "normal", h, by simp [wanted_dep_kind]⟩
  · intro hne hall
    cases ks with
    | nil => exact absurd rfl hne
    | cons k ks' =>
      cases dev with
      | true =>
        unfold edge_wanted
        rw [List.any_eq_true]
        exact ⟨k, List.mem_cons_self _ _, by rw [hall k (List.mem_cons_self _ _)]; simp [wanted_dep_kind]⟩
      | false =>
        unfold edge_wanted
        rw [List.any_eq_false]
        intro k' hk'
        rw [hall k' hk']
        simp [wanted_dep_kind]
  · intro hne hall
    cases ks with
    | nil => exact absurd rfl hne
    | cons k ks' =>
      cases bld with
      | true =>
        unfold edge_wanted
        rw [List.any_eq_true]
        exact ⟨k, List.mem_cons_self _ _, by rw [hall k (List.mem_cons_self _ _)]; simp [wanted_dep_kind]⟩
      | false =>
        unfold edge_wanted
        rw [List.any_eq_false]
        intro k' hk'
        rw [hall k' hk']
        simp [wanted_dep_kind]

/-- Instantiation of `edge_kind_filtering`: a dev-only edge is included with
`include_dev = true` and excluded with `include_dev = false`. -/
theorem edge_kind_filtering_witness :
    edge_wanted [some "dev"] true false = true ∧
    edge_wanted [some "dev"] false false = false :=
  ⟨(edge_kind_filtering true false [some "dev"]).2.1 (by simp) (by simp),
   (edge_kind_filtering false false [some "dev"]).2.1 (by simp) (by simp)⟩

/-! ## C7: loader failure conditions -/

/-- C7: the loader fails with `ResolverInvocationFailed` carrying the
captured error stream exactly when the resolver exits non-zero, and node
collection fails with `MissingResolveGraph` exactly when the metadata has no
resolve graph; these are the only error shapes of either step. -/
theorem resolver_failure_conditions (proc : ProcResult) (meta : Metadata) :
    (run_cargo_metadata proc =
        .error (.ResolverInvocationFailed proc.returncode proc.stderr) ↔
      proc.returncode ≠ 0) ∧
    (∀ d, run_cargo_metadata proc = .error d →
      d = .ResolverInvocationFailed proc.returncode proc.stderr) ∧
    (collect_resolve_nodes meta = .error .MissingResolveGraph ↔ meta.resolve = none) ∧
    (∀ d, collect_resolve_nodes meta = .error d → d = .MissingResolveGraph) := by
  refine ⟨?_, ?_, ?_, ?_⟩
  · unfold run_cargo_metadata
    split
    · rename_i h; simp [h]
    · rename_i h; simp [h]
  · intro d h
    unfold run_cargo_metadata at h
    split at h
    · cases h; rfl
    · cases h
  · rcases hres : meta.resolve with _ | r <;> simp [collect_resolve_nodes, hres]
  · intro d h
    unfold collect_resolve_nodes at h
    split at h
    · cases h; rfl
    · cases h

/-- Instantiation of `resolver_failure_conditions` at exit code 1 and at a
metadata document without a resolve section. -/
theorem resolver_failure_conditions_witness :
    run_cargo_metadata ⟨1, exMetaNoResolve, "boom"⟩ =
      .error (.ResolverInvocationFailed 1 "boom") ∧
    collect_resolve_nodes exMetaNoResolve = .error .MissingResolveGraph :=
  ⟨(resolver_failure_conditions ⟨1, exMetaNoResolve, "boom"⟩ exMetaNoResolve).1.mpr
      (by decide),
   (resolver_failure_conditions ⟨1, exMetaNoResolve, "boom"⟩ exMetaNoResolve).2.2.1.mpr rfl⟩

/-! ## C4: deduplication, ordering and stability of the selection -/

theorem chLt_irrefl : ∀ a : List Char, chLtList a a = false := by
  intro a
  induction a with
  | nil => rfl
  | cons x xs ih => simp [chLtList, lt_irrefl, ih]

theorem chLt_trans :
    ∀ a b c : List Char, chLtList a b = true → chLtList b c = true → chLtList a c = true := by
  intro a
  induction a with
  | nil =>
    intro b c hab hbc
    cases b with
    | nil => cases hab
    | cons y ys =>
      cases c with
      | nil => cases hbc
      | cons z zs => rfl
  | cons x xs ih =>
    intro b c hab hbc
    cases b with
    | nil => cases hab
    | cons y ys =>
      cases c with
      | nil => cases hbc
      | cons z zs =>
        simp only [chLtList] at hab hbc ⊢
        by_cases hxy : x < y
        · by_cases hyz : y < z
          · rw [if_pos (lt_trans hxy hyz)]
          · by_cases hzy : z < y
            · rw [if_neg hyz, if_pos hzy] at hbc; cases hbc
            · have : y = z := le_antisymm (not_lt.mp hzy) (not_lt.mp hyz)
              subst this
              rw [if_pos hxy]
        · by_cases hyx : y < x
          · rw [if_neg hxy, if_pos hyx] at hab; cases hab
          · have : x = y := le_antisymm (not_lt.mp hyx) (not_lt.mp hxy)
            subst this
            rw [if_neg hxy, if_neg hxy] at hab
            by_cases hxz : x < z
            · rw [if_pos hxz]
            · by_cases hzx : z < x
              · rw [if_neg hxz, if_pos hzx] at hbc; cases hbc
              · rw [if_neg hxz, if_neg hzx] at hbc ⊢
                exact ih ys zs hab hbc

theorem chLt_connex :
    ∀ a b : List Char, chLtList a b = false → chLtList b a = false → a = b := by
  intro a
  induction a with
  | nil =>
    intro b hab _
    cases b with
    | nil => rfl
    | cons y ys => cases hab
  | cons x xs ih =>
    intro b hab hba
    cases b with
    | nil => cases hba
    | cons y ys =>
      simp only [chLtList] at hab hba
      by_cases hxy : x < y
      · rw [if_pos hxy] at hab; cases hab
      · by_cases hyx : y < x
        · rw [if_pos hyx] at hba; cases hba
        · have hxyeq : x = y := le_antisymm (not_lt.mp hyx) (not_lt.mp hxy)
          subst hxyeq
          rw [if_neg hxy, if_neg hxy] at hab hba
          rw [ih ys hab hba]

theorem chLt_asymm {a b : List Char} (hab : chLtList a b = true) : chLtList b a = false := by
  by_contra h
  have hba : chLtList b a = true := by
    cases hq : chLtList b a
    · exact absurd hq h
    · rfl
  have := chLt_trans a b a hab hba
  rw [chLt_irrefl] at this
  cases this

theorem keyLe_trans :
    ∀ a b c : Pkg, keyLe a b = true → keyLe b c = true → keyLe a c = true := by
  intro a b c hab hbc
  unfold keyLe strLeB strLtB at hab hbc ⊢
  simp only [Bool.or_eq_true, Bool.and_eq_true, Bool.not_eq_true', beq_iff_eq] at hab hbc ⊢
  rcases hab with hab | ⟨habe, habv⟩
  · rcases hbc with hbc | ⟨hbce, _⟩
    · exact Or.inl (chLt_trans _ _ _ hab hbc)
    · exact Or.inl (hbce ▸ hab)
  · rcases hbc with hbc | ⟨hbce, hbcv⟩
    · exact Or.inl (habe ▸ hbc)
    · refine Or.inr ⟨habe.trans hbce, ?_⟩
      by_contra h
      have hca : chLtList c.version.data a.version.data = true := by
        cases hq : chLtList c.version.data a.version.data
        · exact absurd hq h
        · rfl
      by_cases hac : chLtList a.version.data c.version.data = true
      · rw [chLt_asymm hac] at hca; cases hca
      · have hfa : chLtList a.version.data c.version.data = false := by
          cases hq : chLtList a.version.data c.version.data
          · rfl
          · exact absurd hq hac
        have : a.version.data = c.version.data := by
          by_cases hab2 : chLtList a.version.data b.version.data = true
          · have := chLt_trans _ _ _ hca hab2
            rw [this] at hbcv; cases hbcv
          · have hfab : chLtList a.version.data b.version.data = false := by
              cases hq : chLtList a.version.data b.version.data
              · rfl
              · exact absurd hq hab2
            have heq : a.version.data = b.version.data := chLt_connex _ _ hfab habv
            rw [heq] at hca
            rw [hca] at hbcv
            cases hbcv
        rw [this, chLt_irrefl] at hca
        cases hca

theorem keyLe_total : ∀ a b : Pkg, (keyLe a b || keyLe b a) = true := by
  intro a b
  unfold keyLe strLeB strLtB
  simp only [Bool.or_eq_true, Bool.and_eq_true, Bool.not_eq_true', beq_iff_eq]
  by_cases hn : chLtList (lowerStr a.name).data (lowerStr b.name).data = true
  · exact Or.inl (Or.inl hn)
  · by_cases hn' : chLtList (lowerStr b.name).data (lowerStr a.name).data = true
    · exact Or.inr (Or.inl hn')
    · have hfa : chLtList (lowerStr a.name).data (lowerStr b.name).data = false := by
        cases hq : chLtList (lowerStr a.name).data (lowerStr b.name).data
        · rfl
        · exact absurd hq hn
      have hfb : chLtList (lowerStr b.name).data (lowerStr a.name).data = false := by
        cases hq : chLtList (lowerStr b.name).data (lowerStr a.name).data
        · rfl
        · exact absurd hq hn'
      have heq : lowerStr a.name = lowerStr b.name :=
        String.toList_inj.mp (chLt_connex _ _ hfa hfb)
      by_cases hv : chLtList b.version.data a.version.data = true
      · exact Or.inr (Or.inr ⟨heq.symm, chLt_asymm hv⟩)
      · have : chLtList b.version.data a.version.data = false := by
          cases hq : chLtList b.version.data a.version.data
          · rfl
          · exact absurd hq hv
        exact Or.inl (Or.inr ⟨heq, this⟩)

theorem dictUpdate_forall {κ α : Type} [DecidableEq κ] {Q : κ × α → Prop}
    {m : List (κ × α)} {k : κ} {v : α}
    (hm : ∀ e ∈ m, Q e) (hv : Q (k, v)) : ∀ e ∈ dictUpdate m k v, Q e := by
  unfold dictUpdate
  split
  · intro e he
    rw [List.mem_map] at he
    obtain ⟨e', he', rfl⟩ := he
    split
    · exact hv
    · exact hm e' he'
  · intro e he
    rw [List.mem_append] at he
    rcases he with he | he
    · exact hm e he
    · rw [List.mem_singleton] at he
      exact he ▸ hv

theorem collect_packages_wf (meta : Metadata) :
    ∀ e ∈ collect_packages meta, e.2.pkg_id = e.1 := by
  unfold collect_packages
  have aux : ∀ (ps : List RawPkg) (acc : List (String × Pkg)),
      (∀ e ∈ acc, e.2.pkg_id = e.1) →
      ∀ e ∈ ps.foldl (fun out p => dictUpdate out p.id (pkgOfRaw p)) acc, e.2.pkg_id = e.1 := by
    intro ps
    induction ps with
    | nil => exact fun acc h => h
    | cons p ps ih =>
      intro acc h
      simp only [List.foldl_cons]
      exact ih _ (dictUpdate_forall h rfl)
  exact aux meta.packages [] (by simp)

theorem dictGet_wf {pkgs : List (String × Pkg)} {k : String} {pk : Pkg}
    (hwf : ∀ e ∈ pkgs, e.2.pkg_id = e.1) (h : dictGet pkgs k = some pk) :
    pk.pkg_id = k := by
  unfold dictGet at h
  rcases hf : pkgs.find? (fun e => e.1 = k) with _ | e
  · rw [hf] at h; cases h
  · rw [hf] at h
    cases h
    have hmem := List.mem_of_find?_eq_some hf
    have hkey := List.find?_some hf
    have : e.1 = k := of_decide_eq_true hkey
    rw [hwf e hmem, this]

theorem filterMap_pkgId_sublist (f : String → Option Pkg)
    (hf : ∀ i q, f i = some q → q.pkg_id = i) :
    ∀ ids : List String, ((ids.filterMap f).map (fun p => p.pkg_id)).Sublist ids := by
  intro ids
  induction ids with
  | nil => simp
  | cons i is ih =>
    rw [List.filterMap_cons]
    rcases hq : f i with _ | q
    · exact ih.cons i
    · rw [List.map_cons, hf i q hq]
      exact ih.cons₂ i

theorem selected_unsorted_ids_sublist {meta : Metadata} {pkgs : List (String × Pkg)}
    {nodes : List (String × Node)} {repo_root : P} {dev bld : Bool}
    (hwf : ∀ e ∈ pkgs, e.2.pkg_id = e.1) :
    ((selected_unsorted meta pkgs nodes repo_root dev bld).map (fun p => p.pkg_id)).Sublist
      (direct_ids meta nodes dev bld) := by
  unfold selected_unsorted
  apply filterMap_pkgId_sublist
  intro i q hq
  rcases hd : dictGet pkgs i with _ | q'
  · rw [hd] at hq; cases hq
  · rw [hd] at hq
    dsimp only at hq
    split at hq
    · cases hq
    · cases hq
      exact dictGet_wf hwf hd

/-- C4: the final selected list (computed from the catalog the script
builds) contains each package identifier at most once, is sorted ascending
by `(name lowercased, version)`, and the sort is stable: two packages with
equal keys keep their pre-sort relative order. -/
theorem selection_dedup_sorted_stable
    (meta : Metadata) (nodes : List (String × Node)) (repo_root : P) (dev bld opt : Bool) :
    ((direct_deps_of_roots meta (collect_packages meta) nodes repo_root dev bld opt).map
        (fun p : Pkg => p.pkg_id)).Nodup ∧
    (direct_deps_of_roots meta (collect_packages meta) nodes repo_root dev bld opt).Pairwise
        (fun a b => keyLe a b = true) ∧
    (∀ a b : Pkg, keyLe a b = true → keyLe b a = true →
      [a, b].Sublist (selected_unsorted meta (collect_packages meta) nodes repo_root dev bld) →
      [a, b].Sublist (direct_deps_of_roots meta (collect_packages meta) nodes repo_root dev bld opt)) := by
  refine ⟨?_, ?_, ?_⟩
  · have hperm : List.Perm
        ((direct_deps_of_roots meta (collect_packages meta) nodes repo_root dev bld opt).map
          (fun p : Pkg => p.pkg_id))
        ((selected_unsorted meta (collect_packages meta) nodes repo_root dev bld).map
          (fun p : Pkg => p.pkg_id)) :=
      (List.mergeSort_perm _ keyLe).map _
    rw [hperm.nodup_iff]
    exact ((selected_unsorted_ids_sublist (collect_packages_wf meta)).nodup) nodup_direct_ids
  · exact List.sorted_mergeSort keyLe_trans keyLe_total _
  · intro a b h1 _ hsub
    exact List.pair_sublist_mergeSort keyLe_trans keyLe_total h1 hsub

/-- Instantiation of `selection_dedup_sorted_stable`: the two equal-keyed
`dup 1.0.0` packages of the example keep their accumulation order in the
sorted output. -/
theorem selection_dedup_sorted_stable_witness :
    keyLe (pkgOfRaw exDup1Raw) (pkgOfRaw exDup2Raw) = true ∧
    keyLe (pkgOfRaw exDup2Raw) (pkgOfRaw exDup1Raw) = true ∧
    [pkgOfRaw exDup1Raw, pkgOfRaw exDup2Raw].Sublist
      (direct_deps_of_roots exMeta (collect_packages exMeta) exNodes exRepoRoot false false false) := by
  refine ⟨by decide, by decide, ?_⟩
  refine (selection_dedup_sorted_stable exMeta exNodes exRepoRoot false false false).2.2 _ _
    (by decide) (by decide) ?_
  have h : selected_unsorted exMeta (collect_packages exMeta) exNodes exRepoRoot false false =
      [pkgOfRaw exAlphaRaw, pkgOfRaw exDup1Raw, pkgOfRaw exDup2Raw] := by decide
  rw [h]
  exact (List.Sublist.refl _).cons _

/-! ## C5: table-of-contents anchors match the heading anchors -/

/-- C5: every table-of-contents bullet links to exactly the anchor the
documented algorithm computes from the corresponding section heading
(the heading text after the `"## "` marker). -/
theorem toc_anchors_match_headings (deps : List Pkg) :
    toc_lines deps = deps.map
      (fun p => "- [" ++ dep_title p ++ "](#" ++
        github_anchor ⟨(section_heading p).data.drop 3⟩ ++ ")") := by
  unfold toc_lines
  apply List.map_congr_left
  intro p _
  have hdata : (section_heading p).data.drop 3 = (dep_title p).data := rfl
  rw [toc_line, hdata]

/-! ## C9: the replace-handler decoder is total -/

set_option maxHeartbeats 1000000 in
theorem utf8Decode_some_isSome_aux (h : Char) :
    ∀ (n : Nat) (data : List Nat), data.length ≤ n → (utf8Decode (some h) data).isSome := by
  intro n
  induction n with
  | zero =>
    intro data hlen
    have : data = [] := List.eq_nil_of_length_eq_zero (Nat.le_zero.mp hlen)
    subst this
    rw [utf8Decode]
    rfl
  | succ n ih =>
    intro data hlen
    match data with
    | [] => rw [utf8Decode]; rfl
    | b :: rest =>
      rw [utf8Decode]
      split
      all_goals rename_i resume heq
      all_goals try dsimp only
      all_goals rw [Option.isSome_map']
      all_goals apply ih
      all_goals have hs := utf8Step_shrinks b rest
      all_goals rw [heq] at hs
      all_goals simp only [List.length_cons] at hlen hs ⊢
      all_goals omega

theorem utf8Decode_some_isSome (h : Char) :
    ∀ data : List Nat, (utf8Decode (some h) data).isSome :=
  fun data => utf8Decode_some_isSome_aux h data.length data le_rfl

/-- C9: decoding with the substitution-character handler never fails on any
byte sequence, so `safe_read_text` always returns the utf-8 branch and the
latin-1 fallback is unreachable. -/
theorem utf8_replace_decoding_total (data : List Nat) :
    (∃ cs, utf8Decode (some repChar) data = some cs) ∧
    safe_read_text data = ⟨(utf8Decode (some repChar) (trunc_bytes data)).getD []⟩ := by
  constructor
  · exact Option.isSome_iff_exists.mp (utf8Decode_some_isSome repChar data)
  · unfold safe_read_text
    rcases hq : utf8Decode (some repChar) (trunc_bytes data) with _ | cs
    · exfalso
      have := utf8Decode_some_isSome repChar (trunc_bytes data)
      rw [hq] at this
      cases this
    · simp

/-! ## C6: size-bounded reading -/

theorem utf8Step_ascii {b : Nat} (rest : List Nat) (hb : b < 128) :
    utf8Step b rest = (some (Char.ofNat b), rest) := by
  unfold utf8Step
  rw [if_pos hb]

theorem utf8Decode_ascii (h : Option Char) :
    ∀ data : List Nat, (∀ b ∈ data, b < 128) →
      utf8Decode h data = some (data.map Char.ofNat) := by
  intro data
  induction data with
  | nil => intro _; rw [utf8Decode]; rfl
  | cons b rest ih =>
    intro hall
    have hb : b < 128 := hall b (List.mem_cons_self _ _)
    have hrest := ih (fun x hx => hall x (List.mem_cons_of_mem _ hx))
    rw [utf8Decode]
    split
    · rename_i c resume heq
      rw [utf8Step_ascii rest hb] at heq
      simp only [Prod.mk.injEq, Option.some.injEq] at heq
      obtain ⟨rfl, rfl⟩ := heq
      rw [hrest]
      rfl
    · rename_i resume heq
      rw [utf8Step_ascii rest hb] at heq
      simp at heq

theorem safe_read_text_ascii (data : List Nat) (hlen : data.length ≤ maxBytes)
    (hascii : ∀ b ∈ data, b < 128) : safe_read_text data = ⟨data.map Char.ofNat⟩ := by
  unfold safe_read_text trunc_bytes
  rw [if_neg (not_lt.mpr hlen)]
  rw [utf8Decode_ascii _ data hascii]

/-- C6 (amended): a file longer than 512,000 bytes is decoded from exactly
its first 512,000 bytes plus the `"[TRUNCATED]"` marker; a file within the
bound is decoded whole (verbatim for ASCII content); and the rendered block
embeds the text only after stripping trailing whitespace. -/
theorem safe_read_text_size_bounded (data : List Nat) :
    (data.length > maxBytes →
      (safe_read_text data).data =
        (utf8Decode (some repChar) (data.take maxBytes ++ truncMarker)).getD []) ∧
    (data.length ≤ maxBytes → (∀ b ∈ data, b < 128) →
      safe_read_text data = ⟨data.map Char.ofNat⟩) ∧
    (∀ rel, license_block_lines rel data =
      ["### " ++ rel, "", "```text", pyRstrip (safe_read_text data), "```", ""]) := by
  refine ⟨?_, ?_, fun rel => rfl⟩
  · intro h
    unfold safe_read_text trunc_bytes
    rw [if_pos h]
    rcases hq : utf8Decode (some repChar) (data.take maxBytes ++ truncMarker) with _ | cs
    · exfalso
      have := utf8Decode_some_isSome repChar (data.take maxBytes ++ truncMarker)
      rw [hq] at this
      cases this
    · simp
  · intro hle hall
    exact safe_read_text_ascii data hle hall

/-- The claim's "reproduced verbatim in the rendered report" fails on the
code: a 100-byte file ending in a newline is embedded with that newline
stripped. -/
theorem license_block_not_verbatim :
    (List.replicate 99 97 ++ [10]).length = 100 ∧
    license_block_lines "LICENSE" (List.replicate 99 97 ++ [10]) ≠
      ["### LICENSE", "", "```text",
        ⟨(List.replicate 99 97 ++ [10]).map Char.ofNat⟩, "```", ""] := by
  constructor
  · simp
  · intro hEq
    have hmap : (List.replicate 99 97 ++ [10]).map Char.ofNat =
        List.replicate 99 'a' ++ ['\n'] := by
      rw [List.map_append, List.map_replicate]
      rfl
    have hascii : ∀ b ∈ List.replicate 99 97 ++ [10], b < 128 := by
      intro b hb
      rcases List.mem_append.mp hb with hb | hb
      · have := List.eq_of_mem_replicate hb; omega
      · rw [List.mem_singleton] at hb; omega
    have hlen : (List.replicate 99 97 ++ [10]).length ≤ maxBytes := by
      simp [maxBytes]
    have hsrt := safe_read_text_ascii _ hlen hascii
    have h4 : pyRstrip (safe_read_text (List.replicate 99 97 ++ [10])) =
        ⟨(List.replicate 99 97 ++ [10]).map Char.ofNat⟩ := by
      have := congrArg (fun l : List String => l.get? 3) hEq
      simpa [license_block_lines] using this
    rw [hsrt, hmap] at h4
    have hr : rstripChars (List.replicate 99 'a' ++ ['\n']) = List.replicate 99 'a' := by
      unfold rstripChars
      rw [List.reverse_append, List.reverse_replicate]
      show (List.dropWhile pyIsSpace ('\n' :: List.replicate 99 'a')).reverse = _
      rw [List.dropWhile_cons]
      rw [if_pos (by rfl : pyIsSpace '\n' = true)]
      rw [List.replicate_succ, List.dropWhile_cons]
      rw [if_neg (by simp [pyIsSpace])]
      rw [← List.replicate_succ, List.reverse_replicate]
    unfold pyRstrip at h4
    have h4d := congrArg String.data h4
    dsimp only at h4d
    rw [hr] at h4d
    have hlen2 := congrArg List.length h4d
    simp at hlen2

/-- Instantiation of `safe_read_text_size_bounded` at a 600,000-byte file
and at a 100-byte ASCII file. -/
theorem safe_read_text_size_bounded_witness :
    (List.replicate 600000 97).length > maxBytes ∧
    (safe_read_text (List.replicate 600000 97)).data =
      (utf8Decode (some repChar)
        ((List.replicate 600000 97).take maxBytes ++ truncMarker)).getD [] ∧
    safe_read_text (List.replicate 100 97) = ⟨(List.replicate 100 97).map Char.ofNat⟩ := by
  refine ⟨?_, ?_, ?_⟩
  · rw [List.length_replicate]; norm_num [maxBytes]
  · exact (safe_read_text_size_bounded _).1
      (by rw [List.length_replicate]; norm_num [maxBytes])
  · exact (safe_read_text_size_bounded _).2.1
      (by rw [List.length_replicate]; norm_num [maxBytes])
      (by
        intro b hb
        have := List.eq_of_mem_replicate hb
        omega)

/-! ## C10: precedence of the declared license file over the pattern scan -/

/-- C10: when a `license_file` is declared and its resolved path is an
existing regular file, it is the sole license file rendered; otherwise the
pattern scan of the package directory runs exactly as if nothing had been
declared. -/
theorem license_file_precedence (fs : FS) (p : Pkg) (lf0 : P)
    (hdecl : p.license_file = some lf0) :
    ((fsExists fs (if lf0.absP then lf0
          else resolveP (joinP (parentP p.manifest_path) lf0)) &&
        fsIsFile fs (if lf0.absP then lf0
          else resolveP (joinP (parentP p.manifest_path) lf0))) = true →
      select_license_files fs p =
        [if lf0.absP then lf0 else resolveP (joinP (parentP p.manifest_path) lf0)]) ∧
    ((fsExists fs (if lf0.absP then lf0
          else resolveP (joinP (parentP p.manifest_path) lf0)) &&
        fsIsFile fs (if lf0.absP then lf0
          else resolveP (joinP (parentP p.manifest_path) lf0))) = false →
      select_license_files fs p = find_license_files fs (parentP p.manifest_path) ∧
      select_license_files fs p = select_license_files fs (clearLicenseFile p)) := by
  constructor
  · intro hcond
    unfold select_license_files
    rw [hdecl]
    dsimp only
    rw [hcond]
    rfl
  · intro hcond
    unfold select_license_files clearLicenseFile
    rw [hdecl]
    dsimp only
    rw [hcond]
    exact ⟨rfl, rfl⟩

/-- Instantiation of `license_file_precedence`: with the declared file
present it is rendered alone; with it absent the pattern scan runs as if
undeclared. -/
theorem license_file_precedence_witness :
    exLicPkg.license_file = some (parsePath "docs/MY-LICENSE") ∧
    select_license_files exFs exLicPkg =
      [resolveP (joinP (parentP exLicPkg.manifest_path) (parsePath "docs/MY-LICENSE"))] ∧
    select_license_files exFsNoDecl exLicPkg =
      find_license_files exFsNoDecl (parentP exLicPkg.manifest_path) := by
  refine ⟨rfl, ?_, ?_⟩
  · have h := (license_file_precedence exFs exLicPkg (parsePath "docs/MY-LICENSE") rfl).1
      (by decide)
    simpa using h
  · exact ((license_file_precedence exFsNoDecl exLicPkg (parsePath "docs/MY-LICENSE") rfl).2
      (by decide)).1

end ThirdParty
